import Mathlib

/-!
Verification of the versioned authenticated key-value storage engine
(`storage.rs`): the `VersionedKey` codec, the commit pipeline
(`Storage::commit` / `Storage::commit_inner`), the bootstrap path
(`Storage::load`, `get_rightmost_leaf`, `latest_version`), and the
snapshot cache / subscription publication behavior.

Machine integers are modelled as `Nat` with explicit `% 2^64` where the
code uses wrapping 64-bit arithmetic.  Bytes are `Fin 256`.  The RocksDB
column families are modelled as association lists keyed by byte strings.
External libraries (the `jmt` crate's `put_value_set`, node codecs, and
the SHA-256 key hash) and the I/O failure behavior of RocksDB are
modelled as an explicit environment `Env` of deterministic functions.
-/

namespace PenumbraStorage

abbrev Byte := Fin 256
abbrev Bytes := List Byte

def byteOf (n : Nat) : Byte := ⟨n % 256, Nat.mod_lt n (by decide)⟩

/-- Big-endian byte encoding of `v` on `n` bytes (`u64::to_be_bytes` is
`toBE 8`): most significant byte first. -/
def toBE : Nat → Nat → Bytes
  | 0, _ => []
  | n+1, v => byteOf (v / 256^n) :: toBE n (v % 256^n)

/-- Big-endian accumulator decode (`u64::from_be_bytes` is `beDecode` on
8 bytes). -/
def beDecodeAux (acc : Nat) : Bytes → Nat
  | [] => acc
  | b :: rest => beDecodeAux (256 * acc + b.val) rest

def beDecode (l : Bytes) : Nat := beDecodeAux 0 l

theorem toBE_length (n v : Nat) : (toBE n v).length = n := by
  induction n generalizing v with
  | zero => rfl
  | succ n ih => simp [toBE, ih]

theorem mod_mul_decomp (v A : Nat) :
    v % (A * 256) = A * (v / A % 256) + v % A := by
  conv_lhs => rw [← Nat.div_add_mod (v % (A * 256)) A]
  rw [Nat.mod_mul_right_div_self, Nat.mod_mul_right_mod]

theorem beDecodeAux_toBE (n : Nat) : ∀ (v acc : Nat),
    beDecodeAux acc (toBE n v) = acc * 256^n + v % 256^n := by
  induction n with
  | zero => intro v acc; simp [toBE, beDecodeAux, Nat.mod_one]
  | succ n ih =>
    intro v acc
    have hval : (byteOf (v / 256^n)).val = v / 256^n % 256 := rfl
    calc beDecodeAux acc (toBE (n+1) v)
        = beDecodeAux (256 * acc + v / 256^n % 256) (toBE n (v % 256^n)) := by
          simp [toBE, beDecodeAux, hval]
      _ = (256 * acc + v / 256^n % 256) * 256^n + (v % 256^n) % 256^n := ih _ _
      _ = acc * 256^(n+1) + (256^n * (v / 256^n % 256) + v % 256^n) := by
          rw [Nat.mod_mod_of_dvd v dvd_rfl, pow_succ]; ring
      _ = acc * 256^(n+1) + v % 256^(n+1) := by
          rw [← mod_mul_decomp v (256^n), pow_succ]

theorem beDecode_toBE (n v : Nat) : beDecode (toBE n v) = v % 256^n := by
  simpa [beDecode] using beDecodeAux_toBE n v 0

theorem beDecodeAux_split (l : Bytes) : ∀ acc : Nat,
    beDecodeAux acc l = acc * 256^l.length + beDecodeAux 0 l := by
  induction l with
  | nil => intro acc; simp [beDecodeAux]
  | cons b rest ih =>
    intro acc
    calc beDecodeAux acc (b :: rest)
        = beDecodeAux (256 * acc + b.val) rest := rfl
      _ = (256 * acc + b.val) * 256^rest.length + beDecodeAux 0 rest := ih _
      _ = acc * 256^(b :: rest).length + ((b.val) * 256^rest.length + beDecodeAux 0 rest) := by
          rw [List.length_cons, pow_succ]; ring
      _ = acc * 256^(b :: rest).length + beDecodeAux b.val rest := by rw [ih b.val]
      _ = acc * 256^(b :: rest).length + beDecodeAux 0 (b :: rest) := by
          simp [beDecodeAux]

theorem beDecode_cons (b : Byte) (rest : Bytes) :
    beDecode (b :: rest) = b.val * 256^rest.length + beDecode rest := by
  show beDecodeAux 0 (b :: rest) = _
  have h1 : beDecodeAux 0 (b :: rest) = beDecodeAux b.val rest := by
    simp [beDecodeAux]
  rw [h1, beDecodeAux_split]
  rfl

theorem beDecode_lt (l : Bytes) : beDecode l < 256^l.length := by
  induction l with
  | nil => simp [beDecode, beDecodeAux]
  | cons b rest ih =>
    have hb : b.val + 1 ≤ 256 := b.isLt
    rw [beDecode_cons]
    calc b.val * 256^rest.length + beDecode rest
        < b.val * 256^rest.length + 256^rest.length := by omega
      _ = (b.val + 1) * 256^rest.length := by ring
      _ ≤ 256 * 256^rest.length := Nat.mul_le_mul_right _ hb
      _ = 256^(b :: rest).length := by rw [List.length_cons, pow_succ]; ring

theorem toBE_beDecode (l : Bytes) : toBE l.length (beDecode l) = l := by
  induction l with
  | nil => rfl
  | cons b rest ih =>
    have hpos : 0 < (256:Nat)^rest.length := Nat.pos_pow_of_pos _ (by decide)
    have hlt : beDecode rest < 256^rest.length := beDecode_lt rest
    have hdiv : beDecode (b :: rest) / 256^rest.length = b.val := by
      rw [beDecode_cons, Nat.add_comm, Nat.add_mul_div_right _ _ hpos,
          Nat.div_eq_of_lt hlt, Nat.zero_add]
    have hmod : beDecode (b :: rest) % 256^rest.length = beDecode rest := by
      rw [beDecode_cons, Nat.add_comm, Nat.add_mul_mod_self_right,
          Nat.mod_eq_of_lt hlt]
    show toBE (rest.length + 1) (beDecode (b :: rest)) = b :: rest
    rw [toBE, hdiv, hmod, ih]
    congr 1
    apply Fin.ext
    simp [byteOf, Nat.mod_eq_of_lt b.isLt]

/-! ## Key-value maps (RocksDB column families) -/

/-- One column family: an association list from key bytes to value bytes.
`mput` overwrites, `mdel` removes; keys are kept unique. -/
abbrev Kv := List (Bytes × Bytes)

def mget (m : Kv) (k : Bytes) : Option Bytes :=
  (m.find? (fun e => e.1 == k)).map (fun e => e.2)

def mput (m : Kv) (k v : Bytes) : Kv :=
  (k, v) :: m.filter (fun e => !(e.1 == k))

def mdel (m : Kv) (k : Bytes) : Kv :=
  m.filter (fun e => !(e.1 == k))

theorem mget_cons_of_eq (e : Bytes × Bytes) (rest : Kv) (k' : Bytes) (h : e.1 = k') :
    mget (e :: rest) k' = some e.2 := by
  have h' : (e.1 == k') = true := beq_iff_eq.mpr h
  simp [mget, List.find?_cons, h']

theorem mget_cons_of_ne (e : Bytes × Bytes) (rest : Kv) (k' : Bytes) (h : e.1 ≠ k') :
    mget (e :: rest) k' = mget rest k' := by
  have h' : (e.1 == k') = false := beq_eq_false_iff_ne.mpr h
  simp [mget, List.find?_cons, h']

theorem mget_mput_self (m : Kv) (k v : Bytes) : mget (mput m k v) k = some v := by
  simp [mput, mget_cons_of_eq ((k, v)) _ k rfl]

theorem mget_filter_ne (m : Kv) (k k' : Bytes) (hne : k' ≠ k) :
    mget (m.filter (fun e => !(e.1 == k))) k' = mget m k' := by
  induction m with
  | nil => rfl
  | cons e rest ih =>
    by_cases h1 : e.1 = k
    · rw [List.filter_cons_of_neg (by simp [h1]), ih,
          mget_cons_of_ne e rest k' (by rw [h1]; exact fun h => hne h.symm)]
    · rw [List.filter_cons_of_pos (by simp [h1])]
      by_cases h2 : e.1 = k'
      · rw [mget_cons_of_eq e _ k' h2, mget_cons_of_eq e rest k' h2]
      · rw [mget_cons_of_ne e _ k' h2, ih, mget_cons_of_ne e rest k' h2]

theorem mget_mput_ne (m : Kv) (k v : Bytes) (k' : Bytes) (hne : k' ≠ k) :
    mget (mput m k v) k' = mget m k' := by
  rw [mput, mget_cons_of_ne (k, v) _ k' (fun h => hne h.symm)]
  exact mget_filter_ne m k k' hne

theorem mget_mdel_self (m : Kv) (k : Bytes) : mget (mdel m k) k = none := by
  induction m with
  | nil => rfl
  | cons e rest ih =>
    by_cases h1 : e.1 = k
    · rwa [mdel, List.filter_cons_of_neg (by simp [h1])]
    · rw [mdel, List.filter_cons_of_pos (by simp [h1]), mget_cons_of_ne e _ k h1]
      exact ih

theorem mget_mdel_ne (m : Kv) (k k' : Bytes) (hne : k' ≠ k) :
    mget (mdel m k) k' = mget m k' := mget_filter_ne m k k' hne

/-- Byte-string comparison used to model RocksDB's lexicographic key
order for `seek_to_last`. -/
def bytesLt : Bytes → Bytes → Bool
  | [], [] => false
  | [], _ :: _ => true
  | _ :: _, [] => false
  | a :: as, b :: bs => if a.val < b.val then true else if a = b then bytesLt as bs else false

/-- `seek_to_last` on a column family: the entry with the
lexicographically greatest key, if any. -/
def maxEntry (e : Bytes × Bytes) : Kv → Bytes × Bytes
  | [] => e
  | f :: rest => maxEntry (if bytesLt e.1 f.1 then f else e) rest

def lastEntry : Kv → Option (Bytes × Bytes)
  | [] => none
  | e :: rest => some (maxEntry e rest)

/-! ## Data model -/

/-- The five column families opened by `Storage::load`. -/
structure DB where
  jmt : Kv
  jmt_values : Kv
  jmt_keys : Kv
  jmt_keys_by_keyhash : Kv
  nonconsensus : Kv
deriving DecidableEq

def emptyDB : DB := ⟨[], [], [], [], []⟩

inductive CF
  | jmt
  | jmt_values
  | jmt_keys
  | jmt_keys_by_keyhash
  | nonconsensus
deriving DecidableEq

/-- Error surface of the engine (§7 of the spec / `anyhow` errors in the
code). `pushFailed` models the `expect` on `SnapshotCache::try_push`. -/
inductive Err
  | versionMismatch
  | decodeError
  | backingStoreError
  | jmtError
  | pushFailed
deriving DecidableEq

/-- `jmt::storage::NodeKey`: version plus nibble path (the path bytes are
opaque to this crate). -/
structure NodeKey where
  version : Nat
  nibble_path : Bytes
deriving DecidableEq

/-- `jmt::storage::Node`, exposed to this crate only through its
`Leaf`/non-leaf distinction in `get_rightmost_leaf`. -/
inductive Node
  | leaf (data : Bytes)
  | internal (data : Bytes)
deriving DecidableEq

/-- `jmt::storage::NodeBatch`: the structural nodes plus the per-leaf
value list `((version, key_hash), Option value)`. -/
structure NodeBatch where
  nodes : List (NodeKey × Node)
  values : List ((Nat × Bytes) × Option Bytes)
deriving DecidableEq

/-- The deterministic external world: the SHA-256 key hash, the `jmt`
library (`put_value_set` reads the tree through the current database),
the jmt node codecs, and a failure oracle for RocksDB writes/deletes
(`failPut cf k v` / `failDel cf k` tell whether that I/O call errors). -/
structure Env where
  hash : Bytes → Bytes
  putValueSet : DB → Nat → List (Bytes × Option Bytes) → Nat → Except Err (Bytes × NodeBatch)
  encodeNodeKey : NodeKey → Except Err Bytes
  encodeNode : Node → Except Err Bytes
  decodeNodeKey : Bytes → Except Err NodeKey
  decodeNode : Bytes → Except Err Node
  failPut : CF → Bytes → Bytes → Bool
  failDel : CF → Bytes → Bool

/-- A read view pinned to a jmt version (`Snapshot::new(db, version)`;
the shared db handle is implicit). -/
structure Snapshot where
  version : Nat
deriving DecidableEq

/-- "Pre-genesis" sentinel: `u64::MAX`. -/
def PRE_GENESIS_VERSION : Nat := 2^64 - 1

/-- `u64::wrapping_add(1)` on a 64-bit version. -/
def wrapAdd1 (v : Nat) : Nat := (v + 1) % 2^64

/-- Modelled from the spec (§4.4; `snapshot_cache.rs` is not part of the
provided sources): a bounded LIFO of snapshots with `latest`, lookup by
version, and `try_push` that requires exact version succession. -/
structure SnapshotCache where
  latest : Snapshot
  older : List Snapshot
  capacity : Nat
deriving DecidableEq

def SnapshotCache.new (initial : Snapshot) (capacity : Nat) : SnapshotCache :=
  ⟨initial, [], capacity⟩

def SnapshotCache.try_push (c : SnapshotCache) (s : Snapshot) : Option SnapshotCache :=
  if s.version = wrapAdd1 c.latest.version then
    some ⟨s, (c.latest :: c.older).take (c.capacity - 1), c.capacity⟩
  else none

def SnapshotCache.get (c : SnapshotCache) (v : Nat) : Option Snapshot :=
  if c.latest.version = v then some c.latest
  else c.older.find? (fun s => s.version == v)

/-- Modelled from the spec (§3, §4.5; `cache.rs` is not part of the
provided sources): pending authenticated and nonconsensus mutations.
The lists stand for the iteration order of the underlying `BTreeMap`s
(keys unique). -/
structure Cache where
  unwritten_changes : List (Bytes × Option Bytes)
  nonconsensus_changes : List (Bytes × Option Bytes)
deriving DecidableEq

/-- Modelled from the spec (§4.5; `StateDelta` is not part of the
provided sources): a base snapshot plus staged changes. -/
structure StateDelta where
  snapshot : Snapshot
  cache : Cache
deriving DecidableEq

/-- Modelled from the spec: flattening a `StateDelta` yields its base
snapshot and its cache. -/
def StateDelta.flatten (d : StateDelta) : Snapshot × Cache := (d.snapshot, d.cache)

/-- The `Inner` state behind `Storage`: the snapshot cache, the RocksDB
handle, and the `watch` sender.  `notifications` records the sequence of
snapshots sent on `state_tx` (the watch channel retains the most recent
one). -/
structure Storage where
  snapshots : SnapshotCache
  db : DB
  notifications : List Snapshot
deriving DecidableEq

def Storage.latest_snapshot (s : Storage) : Snapshot := s.snapshots.latest

def Storage.latest_version (s : Storage) : Nat := s.latest_snapshot.version

/-! ## VersionedKey codec (`storage.rs` lines 264-296) -/

structure VersionedKey where
  key_hash : Bytes
  version : Nat
deriving DecidableEq

/-- `VersionedKey::encode`: key-hash bytes followed by the big-endian
u64 version. -/
def VersionedKey.encode (x : VersionedKey) : Bytes :=
  x.key_hash ++ toBE 8 x.version

/-- `VersionedKey::decode`: requires exactly 40 bytes; the first 32 are
the key hash, the last 8 the big-endian version. -/
def VersionedKey.decode (buf : Bytes) : Except Err VersionedKey :=
  if buf.length ≠ 40 then .error .decodeError
  else .ok { key_hash := buf.take 32, version := beDecode (buf.drop 32) }

/-! ## Commit pipeline (`storage.rs` lines 116-254) -/

/-- `commit_inner`'s pre-hashing of the unwritten changes:
`(KeyHash::with::<Sha256>(k), k, v)` per entry. -/
def hashChanges (env : Env) (uw : List (Bytes × Option Bytes)) :
    List (Bytes × Bytes × Option Bytes) :=
  uw.map (fun x => (env.hash x.1, x.1, x.2))

/-- The value set passed to `jmt.put_value_set`: `(keyhash, value)`
pairs. -/
def valueSet (l : List (Bytes × Bytes × Option Bytes)) : List (Bytes × Option Bytes) :=
  l.map (fun x => (x.1, x.2.2))

/-- The two-way index maintenance loop of `commit_inner`: for a present
value, put `preimage → keyhash` and `keyhash → preimage`; for an absent
value, delete both entries.  On an I/O error the loop stops, leaving the
earlier writes in place. -/
def writeIndexes (env : Env) (db : DB) :
    List (Bytes × Bytes × Option Bytes) → Option Err × DB
  | [] => (none, db)
  | (keyhash, key_preimage, v) :: rest =>
    match v with
    | some _ =>
      if env.failPut .jmt_keys key_preimage keyhash then (some .backingStoreError, db) else
      if env.failPut .jmt_keys_by_keyhash keyhash key_preimage then
        (some .backingStoreError, { db with jmt_keys := mput db.jmt_keys key_preimage keyhash })
      else
        writeIndexes env
          { db with jmt_keys := mput db.jmt_keys key_preimage keyhash,
                    jmt_keys_by_keyhash := mput db.jmt_keys_by_keyhash keyhash key_preimage }
          rest
    | none =>
      if env.failDel .jmt_keys key_preimage then (some .backingStoreError, db) else
      if env.failDel .jmt_keys_by_keyhash keyhash then
        (some .backingStoreError, { db with jmt_keys := mdel db.jmt_keys key_preimage })
      else
        writeIndexes env
          { db with jmt_keys := mdel db.jmt_keys key_preimage,
                    jmt_keys_by_keyhash := mdel db.jmt_keys_by_keyhash keyhash }
          rest

/-- `Inner::write_node_batch` (the `TreeWriter` impl): encode and put
each `(NodeKey, Node)` into the `jmt` column family. -/
def write_node_batch (env : Env) (db : DB) :
    List (NodeKey × Node) → Option Err × DB
  | [] => (none, db)
  | (node_key, node) :: rest =>
    match env.encodeNodeKey node_key with
    | .error e => (some e, db)
    | .ok key_bytes =>
      match env.encodeNode node with
      | .error e => (some e, db)
      | .ok node_bytes =>
        if env.failPut .jmt key_bytes node_bytes then (some .backingStoreError, db) else
        write_node_batch env { db with jmt := mput db.jmt key_bytes node_bytes } rest

/-- The leaf-value persistence loop of `commit_inner`: a present value
is written to `jmt_values` under `VersionedKey{version, key_hash}`'s
encoding; an absent value is skipped (`continue`). -/
def writeValues (env : Env) (db : DB) :
    List ((Nat × Bytes) × Option Bytes) → Option Err × DB
  | [] => (none, db)
  | ((version, key_hash), value) :: rest =>
    match value with
    | none => writeValues env db rest
    | some v =>
      if env.failPut .jmt_values (VersionedKey.encode ⟨key_hash, version⟩) v then
        (some .backingStoreError, db)
      else
        writeValues env
          { db with jmt_values := mput db.jmt_values (VersionedKey.encode ⟨key_hash, version⟩) v }
          rest

/-- The nonconsensus write loop of `commit_inner`: put present values,
delete absent ones. -/
def writeNonconsensus (env : Env) (db : DB) :
    List (Bytes × Option Bytes) → Option Err × DB
  | [] => (none, db)
  | (k, v) :: rest =>
    match v with
    | some v =>
      if env.failPut .nonconsensus k v then (some .backingStoreError, db) else
      writeNonconsensus env { db with nonconsensus := mput db.nonconsensus k v } rest
    | none =>
      if env.failDel .nonconsensus k then (some .backingStoreError, db) else
      writeNonconsensus env { db with nonconsensus := mdel db.nonconsensus k } rest

/-- `Storage::commit_inner`: hash the changes, maintain the two-way
index, apply the value set to the jmt at `new_version`, persist the node
batch and the leaf values, apply nonconsensus changes, then install the
new snapshot in the cache and send it on the watch channel.  Any error
aborts before the snapshot is installed. -/
def Storage.commit_inner (env : Env) (s : Storage) (cache : Cache) (new_version : Nat) :
    Except Err Bytes × Storage :=
  match writeIndexes env s.db (hashChanges env cache.unwritten_changes) with
  | (some e, db) => (.error e, { s with db := db })
  | (none, db) =>
    match env.putValueSet db s.snapshots.latest.version
        (valueSet (hashChanges env cache.unwritten_changes)) new_version with
    | .error e => (.error e, { s with db := db })
    | .ok (root_hash, batch) =>
      match write_node_batch env db batch.nodes with
      | (some e, db) => (.error e, { s with db := db })
      | (none, db) =>
        match writeValues env db batch.values with
        | (some e, db) => (.error e, { s with db := db })
        | (none, db) =>
          match writeNonconsensus env db cache.nonconsensus_changes with
          | (some e, db) => (.error e, { s with db := db })
          | (none, db) =>
            match s.snapshots.try_push ⟨new_version⟩ with
            | none => (.error .pushFailed, { s with db := db })
            | some snapshots =>
              (.ok root_hash,
                { snapshots := snapshots, db := db,
                  notifications := s.notifications ++ [⟨new_version⟩] })

/-- `Storage::commit`: flatten the delta, compute
`new_version = old_version.wrapping_add(1)`, reject a stale base with a
version mismatch error, and otherwise run `commit_inner`. -/
def Storage.commit (env : Env) (s : Storage) (delta : StateDelta) :
    Except Err Bytes × Storage :=
  if s.latest_version ≠ delta.flatten.1.version then (.error .versionMismatch, s)
  else Storage.commit_inner env s delta.flatten.2 (wrapAdd1 s.latest_version)

/-! ## Bootstrap (`storage.rs` lines 41-87 and 319-342) -/

/-- `get_rightmost_leaf`: seek to the last key of the `jmt` column
family; decode the key as a `NodeKey` and the value as a `Node`; return
it only when the node is a leaf. -/
def get_rightmost_leaf (env : Env) (db : DB) :
    Except Err (Option (NodeKey × Bytes)) :=
  match lastEntry db.jmt with
  | none => .ok none
  | some (k, v) =>
    match env.decodeNodeKey k with
    | .error e => .error e
    | .ok node_key =>
      match env.decodeNode v with
      | .error e => .error e
      | .ok node =>
        match node with
        | .leaf data => .ok (some (node_key, data))
        | .internal _ => .ok none

/-- Free function `latest_version(db)`: the version of the rightmost
leaf, if any. -/
def latest_version (env : Env) (db : DB) : Except Err (Option Nat) :=
  (get_rightmost_leaf env db).map (fun o => o.map (fun x => x.1.version))

/-- `Storage::load` after the column families have been opened: derive
the initial jmt version (pre-genesis sentinel when absent) and install
the initial snapshot in a fresh cache of capacity 10. -/
def Storage.load (env : Env) (db : DB) : Except Err Storage :=
  (PenumbraStorage.latest_version env db).map (fun lv =>
    { snapshots := SnapshotCache.new ⟨lv.getD PRE_GENESIS_VERSION⟩ 10,
      db := db, notifications := [] })

/-- A freshly opened empty store: pre-genesis snapshot, empty database,
nothing sent yet. -/
def openEmpty : Storage :=
  { snapshots := SnapshotCache.new ⟨PRE_GENESIS_VERSION⟩ 10,
    db := emptyDB, notifications := [] }

/-- Feed an ordered sequence of deltas to a storage instance, recording
for each commit the returned root hash and the latest version after the
commit. -/
def commitSeq (env : Env) (s : Storage) :
    List StateDelta → List (Except Err Bytes × Nat) × Storage
  | [] => ([], s)
  | d :: ds =>
    let r := Storage.commit env s d
    let rest := commitSeq env r.2 ds
    ((r.1, r.2.latest_version) :: rest.1, rest.2)

/-- A delta built on the current tip (the only kind `commit` accepts). -/
def tipDelta (s : Storage) (c : Cache) : StateDelta :=
  { snapshot := s.snapshots.latest, cache := c }

/-- Commit a list of caches, each based on the then-current tip. -/
def commitChain (env : Env) (s : Storage) : List Cache → Storage
  | [] => s
  | c :: cs => commitChain env (Storage.commit env s (tipDelta s c)).2 cs

/-- An environment in which no external operation fails: RocksDB writes
and deletes succeed, and the jmt's `put_value_set` and node encoders
return `Ok`. -/
def noFail (env : Env) : Prop :=
  (∀ cf k v, env.failPut cf k v = false) ∧
  (∀ cf k, env.failDel cf k = false) ∧
  (∀ db sv vs nv, ∃ r, env.putValueSet db sv vs nv = .ok r) ∧
  (∀ nk, ∃ b, env.encodeNodeKey nk = .ok b) ∧
  (∀ n, ∃ b, env.encodeNode n = .ok b)

/-! ## Concrete environments used to evaluate the model -/

/-- A trivial deterministic environment: identity key hash, a jmt stub
that always succeeds, and no I/O failures. -/
def env0 : Env :=
  { hash := id,
    putValueSet := fun _ _ _ _ => .ok ([], ⟨[], []⟩),
    encodeNodeKey := fun nk => .ok (toBE 8 nk.version ++ nk.nibble_path),
    encodeNode := fun _ => .ok [],
    decodeNodeKey := fun _ => .error .decodeError,
    decodeNode := fun _ => .error .decodeError,
    failPut := fun _ _ _ => false,
    failDel := fun _ _ => false }

/-- Like `env0` but the jmt rejects every value set. -/
def envJmtFail : Env :=
  { env0 with putValueSet := fun _ _ _ _ => .error .jmtError }

/-- Like `env0` but every RocksDB put fails. -/
def envPutFail : Env :=
  { env0 with failPut := fun _ _ _ => true }

/-! ## C4: the VersionedKey codec is a bijection -/

/-- Claim C4: `VersionedKey::decode` inverts `VersionedKey::encode`;
decode succeeds exactly on buffers of length 40 (any other length is a
decode error), and encode/decode form a bijection between well-formed
`VersionedKey` values (32-byte key hash, 64-bit version) and 40-byte
buffers. -/
theorem versioned_key_codec_bijective :
    (∀ x : VersionedKey, x.key_hash.length = 32 → x.version < 2^64 →
      VersionedKey.decode (VersionedKey.encode x) = .ok x) ∧
    (∀ buf : Bytes, (∃ x, VersionedKey.decode buf = .ok x) ↔ buf.length = 40) ∧
    (∀ buf : Bytes, buf.length ≠ 40 → VersionedKey.decode buf = .error .decodeError) ∧
    (∀ buf : Bytes, buf.length = 40 →
      ∃ x, VersionedKey.decode buf = .ok x ∧ VersionedKey.encode x = buf ∧
        x.key_hash.length = 32 ∧ x.version < 2^64) := by
  have h2pow : (2:Nat)^64 = 256^8 := by norm_num
  refine ⟨?_, ?_, ?_, ?_⟩
  · intro x hlen hver
    have hlen40 : (VersionedKey.encode x).length = 40 := by
      simp [VersionedKey.encode, toBE_length, hlen]
    have htake : (VersionedKey.encode x).take 32 = x.key_hash := by
      rw [VersionedKey.encode, ← hlen, List.take_left]
    have hdrop : (VersionedKey.encode x).drop 32 = toBE 8 x.version := by
      rw [VersionedKey.encode, ← hlen, List.drop_left]
    rw [VersionedKey.decode, if_neg (by rw [hlen40]; exact fun h => h rfl)]
    rw [htake, hdrop, beDecode_toBE, ← h2pow, Nat.mod_eq_of_lt hver]
  · intro buf
    constructor
    · rintro ⟨x, hx⟩
      by_contra hne
      rw [VersionedKey.decode, if_pos hne] at hx
      exact Except.noConfusion hx
    · intro hlen
      exact ⟨_, by rw [VersionedKey.decode, if_neg (by rw [hlen]; exact fun h => h rfl)]⟩
  · intro buf hne
    rw [VersionedKey.decode, if_pos hne]
  · intro buf hlen
    have hdlen : (buf.drop 32).length = 8 := by
      rw [List.length_drop, hlen]
    have htlen : (buf.take 32).length = 32 := by
      rw [List.length_take, hlen]; omega
    refine ⟨⟨buf.take 32, beDecode (buf.drop 32)⟩, ?_, ?_, htlen, ?_⟩
    · rw [VersionedKey.decode, if_neg (by rw [hlen]; exact fun h => h rfl)]
    · show buf.take 32 ++ toBE 8 (beDecode (buf.drop 32)) = buf
      rw [← hdlen, toBE_beDecode, List.take_append_drop]
    · show beDecode (buf.drop 32) < 2^64
      rw [h2pow, ← hdlen]
      exact beDecode_lt _

/-- Witness for C4 at concrete inputs: a 40-byte round trip and a
failing 3-byte decode. -/
theorem versioned_key_codec_bijective_witness :
    VersionedKey.decode (VersionedKey.encode ⟨List.replicate 32 (0:Byte), 5⟩) =
      .ok ⟨List.replicate 32 (0:Byte), 5⟩ ∧
    VersionedKey.decode (List.replicate 3 (0:Byte)) = .error .decodeError :=
  ⟨versioned_key_codec_bijective.1 _ (by simp) (by norm_num),
   versioned_key_codec_bijective.2.2.1 _ (by simp)⟩

/-! ## C9: encode is monotone for lexicographic byte order -/

theorem lex_append_same (r : Byte → Byte → Prop) (l : Bytes) :
    ∀ {a b : Bytes}, List.Lex r a b → List.Lex r (l ++ a) (l ++ b) := by
  induction l with
  | nil => exact fun h => h
  | cons c l ih => exact fun h => List.Lex.cons (ih h)

theorem lex_append_of_eqlen (r : Byte → Byte → Prop) {l1 l2 : Bytes}
    (h : List.Lex r l1 l2) :
    ∀ (a b : Bytes), l1.length = l2.length → List.Lex r (l1 ++ a) (l2 ++ b) := by
  induction h with
  | nil => intro a b hlen; exact absurd hlen (by simp)
  | @cons x l1 l2 h ih =>
    intro a b hlen
    exact List.Lex.cons (ih a b (by simpa using hlen))
  | @rel x l1 y l2 h =>
    intro a b _
    exact List.Lex.rel h

theorem toBE_lex (n : Nat) : ∀ v1 v2 : Nat, v1 < v2 → v2 < 256^n →
    List.Lex (· < ·) (toBE n v1) (toBE n v2) := by
  induction n with
  | zero => intro v1 v2 h12 h2; simp at h2; omega
  | succ n ih =>
    intro v1 v2 h12 h2
    have hpos : 0 < (256:Nat)^n := Nat.pos_pow_of_pos _ (by decide)
    have hd : v1 / 256^n ≤ v2 / 256^n := Nat.div_le_div_right (le_of_lt h12)
    have hd2 : v2 / 256^n < 256 := by
      rw [Nat.div_lt_iff_lt_mul hpos]
      calc v2 < 256^(n+1) := h2
        _ = 256 * 256^n := by rw [pow_succ]; ring
    have hd1 : v1 / 256^n < 256 := lt_of_le_of_lt hd hd2
    rcases lt_or_eq_of_le hd with hlt | heq
    · apply List.Lex.rel
      show byteOf (v1 / 256^n) < byteOf (v2 / 256^n)
      rw [Fin.lt_def]
      show v1 / 256^n % 256 < v2 / 256^n % 256
      rw [Nat.mod_eq_of_lt hd1, Nat.mod_eq_of_lt hd2]
      exact hlt
    · rw [show toBE (n+1) v1 = byteOf (v1 / 256^n) :: toBE n (v1 % 256^n) from rfl,
          show toBE (n+1) v2 = byteOf (v2 / 256^n) :: toBE n (v2 % 256^n) from rfl, heq]
      apply List.Lex.cons
      apply ih
      · have e1 := Nat.div_add_mod v1 (256^n)
        have e2 := Nat.div_add_mod v2 (256^n)
        rw [heq] at e1
        omega
      · exact Nat.mod_lt _ hpos

/-- Claim C9: `VersionedKey::encode` is monotone with respect to
lexicographic byte order: for a fixed key hash, increasing 64-bit
versions give lexicographically increasing encodings; and for 32-byte
key hashes ordered lexicographically, every encoding of the smaller
hash sorts before every encoding of the larger one. -/
theorem versioned_key_encode_monotone :
    (∀ (key_hash : Bytes) (v1 v2 : Nat), v1 < v2 → v2 < 2^64 →
      List.Lex (· < ·) (VersionedKey.encode ⟨key_hash, v1⟩)
        (VersionedKey.encode ⟨key_hash, v2⟩)) ∧
    (∀ (h1 h2 : Bytes) (v1 v2 : Nat), h1.length = 32 → h2.length = 32 →
      List.Lex (· < ·) h1 h2 →
      List.Lex (· < ·) (VersionedKey.encode ⟨h1, v1⟩)
        (VersionedKey.encode ⟨h2, v2⟩)) := by
  constructor
  · intro key_hash v1 v2 h12 h2
    apply lex_append_same
    apply toBE_lex
    · exact h12
    · calc v2 < 2^64 := h2
        _ = 256^8 := by norm_num
  · intro h1 h2 v1 v2 hl1 hl2 hlex
    exact lex_append_of_eqlen _ hlex _ _ (by rw [hl1, hl2])

/-- Witness for C9 at concrete inputs. -/
theorem versioned_key_encode_monotone_witness :
    List.Lex (· < ·) (VersionedKey.encode ⟨List.replicate 32 (0:Byte), 0⟩)
      (VersionedKey.encode ⟨List.replicate 32 (0:Byte), 1⟩) :=
  versioned_key_encode_monotone.1 _ 0 1 (by decide) (by norm_num)

/-! ## C2: a stale base snapshot is rejected without mutation -/

/-- Claim C2: committing a `StateDelta` whose base snapshot version
differs from the current latest version returns the version-mismatch
error and leaves the storage state (database, snapshot cache, and
notification stream) completely unchanged. -/
theorem commit_version_mismatch (env : Env) (s : Storage) (d : StateDelta)
    (h : d.snapshot.version ≠ s.latest_version) :
    Storage.commit env s d = (.error .versionMismatch, s) := by
  simp only [Storage.commit, StateDelta.flatten]
  rw [if_pos (Ne.symm h)]

/-- Witness for C2: a delta forked from version 5 against a fresh store
whose tip is the pre-genesis sentinel. -/
theorem commit_version_mismatch_witness :
    Storage.commit env0 openEmpty ⟨⟨5⟩, ⟨[], []⟩⟩ =
      (.error .versionMismatch, openEmpty) :=
  commit_version_mismatch env0 openEmpty ⟨⟨5⟩, ⟨[], []⟩⟩ (by decide)

/-! ## C8: errors in the commit worker publish nothing -/

/-- A small delta used to evaluate the model on concrete inputs. -/
def cache1 : Cache :=
  ⟨[([(0:Byte)], some [(1:Byte)])], [([(2:Byte)], some [(3:Byte)])]⟩

/-- Claim C8: if any step of the commit worker fails (index write, jmt
value-set application, node-batch write, leaf-value write, or
nonconsensus write), `commit_inner` returns that error without
installing a snapshot in the cache and without sending a notification:
no new version is published on error. -/
theorem commit_inner_error_no_publish (env : Env) (s : Storage) (cache : Cache)
    (nv : Nat) (e : Err) (s' : Storage)
    (h : Storage.commit_inner env s cache nv = (.error e, s')) :
    s'.snapshots = s.snapshots ∧ s'.notifications = s.notifications := by
  unfold Storage.commit_inner at h
  repeat' split at h
  all_goals
    first
    | (injection h with h1 h2; subst h2; exact ⟨rfl, rfl⟩)
    | (injection h with h1 h2; exact Except.noConfusion h1)

/-- Witness for C8: with every RocksDB put failing, the first index
write aborts the commit and the cache and notification stream are
untouched. -/
theorem commit_inner_error_no_publish_witness :
    (Storage.commit_inner envPutFail openEmpty cache1 0).2.snapshots =
      openEmpty.snapshots ∧
    (Storage.commit_inner envPutFail openEmpty cache1 0).2.notifications =
      openEmpty.notifications :=
  commit_inner_error_no_publish envPutFail openEmpty cache1 0 .backingStoreError _
    (by rfl)

/-! ## C10: the key index is mutated before the jmt application -/

/-- Claim C10: in `commit_inner` the `jmt_keys` / `jmt_keys_by_keyhash`
puts and deletes happen before `put_value_set`; if the jmt application
then fails, the commit returns the error with the database left exactly
in the state produced by the index writes (and, by C8, no snapshot is
published): the error path does not leave the index column families
unchanged. -/
theorem commit_inner_index_written_on_jmt_error (env : Env) (s : Storage)
    (cache : Cache) (nv : Nat) (db1 : DB) (e : Err)
    (hw : writeIndexes env s.db (hashChanges env cache.unwritten_changes) = (none, db1))
    (hp : env.putValueSet db1 s.snapshots.latest.version
        (valueSet (hashChanges env cache.unwritten_changes)) nv = .error e) :
    Storage.commit_inner env s cache nv = (.error e, { s with db := db1 }) := by
  unfold Storage.commit_inner
  simp only [hw, hp]

/-- Witness for C10: with a jmt that rejects every value set, committing
`cache1` errors out while the forward index already contains the new
key — the database is not the one we started from. -/
theorem commit_inner_index_written_on_jmt_error_witness :
    Storage.commit_inner envJmtFail openEmpty cache1 0 =
      (.error .jmtError,
        { openEmpty with
            db := (writeIndexes envJmtFail openEmpty.db
                    (hashChanges envJmtFail cache1.unwritten_changes)).2 }) ∧
    mget (writeIndexes envJmtFail openEmpty.db
            (hashChanges envJmtFail cache1.unwritten_changes)).2.jmt_keys
        [(0:Byte)] = some [(0:Byte)] ∧
    mget openEmpty.db.jmt_keys [(0:Byte)] = none :=
  ⟨commit_inner_index_written_on_jmt_error envJmtFail openEmpty cache1 0 _
      .jmtError (by rfl) (by rfl),
   by decide, by decide⟩

/-! ## C1: replay determinism -/

theorem commit_inner_congr (env : Env) (S : SnapshotCache) (D : DB)
    (n1 n2 : List Snapshot) (cache : Cache) (nv : Nat) :
    (Storage.commit_inner env ⟨S, D, n1⟩ cache nv).1 =
      (Storage.commit_inner env ⟨S, D, n2⟩ cache nv).1 ∧
    (Storage.commit_inner env ⟨S, D, n1⟩ cache nv).2.db =
      (Storage.commit_inner env ⟨S, D, n2⟩ cache nv).2.db ∧
    (Storage.commit_inner env ⟨S, D, n1⟩ cache nv).2.snapshots =
      (Storage.commit_inner env ⟨S, D, n2⟩ cache nv).2.snapshots := by
  unfold Storage.commit_inner
  rcases hw : writeIndexes env D (hashChanges env cache.unwritten_changes) with ⟨o, db1⟩
  rcases o with _ | e
  · rcases hp : env.putValueSet db1 S.latest.version
        (valueSet (hashChanges env cache.unwritten_changes)) nv with e | rb
    · simp [hw, hp]
    · rcases rb with ⟨root, batch⟩
      rcases hn : write_node_batch env db1 batch.nodes with ⟨o2, db2⟩
      rcases o2 with _ | e
      · rcases hv : writeValues env db2 batch.values with ⟨o3, db3⟩
        rcases o3 with _ | e
        · rcases hnc : writeNonconsensus env db3 cache.nonconsensus_changes with ⟨o4, db4⟩
          rcases o4 with _ | e
          · rcases ht : S.try_push ⟨nv⟩ with _ | c
            · simp [hw, hp, hn, hv, hnc, ht]
            · simp [hw, hp, hn, hv, hnc, ht]
          · simp [hw, hp, hn, hv, hnc]
        · simp [hw, hp, hn, hv]
      · simp [hw, hp, hn]
  · simp [hw]

theorem commit_congr (env : Env) (S : SnapshotCache) (D : DB)
    (n1 n2 : List Snapshot) (d : StateDelta) :
    (Storage.commit env ⟨S, D, n1⟩ d).1 = (Storage.commit env ⟨S, D, n2⟩ d).1 ∧
    (Storage.commit env ⟨S, D, n1⟩ d).2.db = (Storage.commit env ⟨S, D, n2⟩ d).2.db ∧
    (Storage.commit env ⟨S, D, n1⟩ d).2.snapshots =
      (Storage.commit env ⟨S, D, n2⟩ d).2.snapshots := by
  unfold Storage.commit
  simp only [StateDelta.flatten, Storage.latest_version, Storage.latest_snapshot]
  by_cases hc : S.latest.version ≠ d.snapshot.version
  · simp [hc]
  · simp only [if_neg hc]
    exact commit_inner_congr env S D n1 n2 d.cache (wrapAdd1 S.latest.version)

/-- Claim C1: replay determinism.  Two independent storage instances
with the same database contents and the same snapshot cache (in
particular, two instances opened on empty stores), fed the same ordered
sequence of deltas, produce the same stream of (root-hash result,
version) pairs — one pair per commit — and end with identical databases
and snapshot caches.  The `(root-hash, version)` pair after each commit
is therefore a pure function of the ordered committed deltas. -/
theorem commit_replay_deterministic (env : Env) (ds : List StateDelta) :
    ∀ (s1 s2 : Storage), s1.db = s2.db → s1.snapshots = s2.snapshots →
      (commitSeq env s1 ds).1 = (commitSeq env s2 ds).1 ∧
      (commitSeq env s1 ds).2.db = (commitSeq env s2 ds).2.db ∧
      (commitSeq env s1 ds).2.snapshots = (commitSeq env s2 ds).2.snapshots := by
  induction ds with
  | nil =>
    intro s1 s2 hdb hsnap
    exact ⟨rfl, hdb, hsnap⟩
  | cons d ds ih =>
    intro s1 s2 hdb hsnap
    obtain ⟨S1, D1, N1⟩ := s1
    obtain ⟨S2, D2, N2⟩ := s2
    simp only [Storage.db] at hdb
    simp only [Storage.snapshots] at hsnap
    subst hdb
    subst hsnap
    obtain ⟨h1, h2, h3⟩ := commit_congr env S1 D1 N1 N2 d
    have hlat : (Storage.commit env ⟨S1, D1, N1⟩ d).2.latest_version =
        (Storage.commit env ⟨S1, D1, N2⟩ d).2.latest_version := by
      simp only [Storage.latest_version, Storage.latest_snapshot, h3]
    obtain ⟨ih1, ih2, ih3⟩ :=
      ih (Storage.commit env ⟨S1, D1, N1⟩ d).2 (Storage.commit env ⟨S1, D1, N2⟩ d).2 h2 h3
    refine ⟨?_, ih2, ih3⟩
    simp only [commitSeq]
    rw [h1, hlat, ih1]

/-- Witness for C1: two instances opened on an empty store — one of
them with an unrelated pre-existing notification history — replay a
one-delta sequence identically. -/
theorem commit_replay_deterministic_witness :
    (commitSeq env0 openEmpty [tipDelta openEmpty cache1]).1 =
      (commitSeq env0 { openEmpty with notifications := [⟨7⟩] }
        [tipDelta openEmpty cache1]).1 :=
  (commit_replay_deterministic env0 [tipDelta openEmpty cache1] openEmpty
    { openEmpty with notifications := [⟨7⟩] } rfl rfl).1

/-! ## C5: versions advance by wrapping +1; published versions are 0..n-1 -/

theorem writeIndexes_noFail (env : Env) (hf : noFail env) :
    ∀ (l : List (Bytes × Bytes × Option Bytes)) (db : DB),
      (writeIndexes env db l).1 = none := by
  intro l
  induction l with
  | nil => intro db; rfl
  | cons x rest ih =>
    intro db
    rcases x with ⟨kh, k, v⟩
    rcases v with _ | v
    · simp [writeIndexes, hf.2.1, ih]
    · simp [writeIndexes, hf.1, ih]

theorem write_node_batch_noFail (env : Env) (hf : noFail env) :
    ∀ (l : List (NodeKey × Node)) (db : DB),
      (write_node_batch env db l).1 = none := by
  intro l
  induction l with
  | nil => intro db; rfl
  | cons x rest ih =>
    intro db
    rcases x with ⟨nk, node⟩
    obtain ⟨kb, hkb⟩ := hf.2.2.2.1 nk
    obtain ⟨nb, hnb⟩ := hf.2.2.2.2 node
    simp [write_node_batch, hkb, hnb, hf.1, ih]

theorem writeValues_noFail (env : Env) (hf : noFail env) :
    ∀ (l : List ((Nat × Bytes) × Option Bytes)) (db : DB),
      (writeValues env db l).1 = none := by
  intro l
  induction l with
  | nil => intro db; rfl
  | cons x rest ih =>
    intro db
    rcases x with ⟨⟨ver, kh⟩, v⟩
    rcases v with _ | v
    · simp [writeValues, ih]
    · simp [writeValues, hf.1, ih]

theorem writeNonconsensus_noFail (env : Env) (hf : noFail env) :
    ∀ (l : List (Bytes × Option Bytes)) (db : DB),
      (writeNonconsensus env db l).1 = none := by
  intro l
  induction l with
  | nil => intro db; rfl
  | cons x rest ih =>
    intro db
    rcases x with ⟨k, v⟩
    rcases v with _ | v
    · simp [writeNonconsensus, hf.2.1, ih]
    · simp [writeNonconsensus, hf.1, ih]

theorem commit_inner_noFail (env : Env) (hf : noFail env) (s : Storage)
    (cache : Cache) (nv : Nat) (hv : nv = wrapAdd1 s.snapshots.latest.version) :
    ∃ r db',
      Storage.commit_inner env s cache nv =
        (.ok r,
          { snapshots :=
              ⟨⟨nv⟩, (s.snapshots.latest :: s.snapshots.older).take (s.snapshots.capacity - 1),
               s.snapshots.capacity⟩,
            db := db', notifications := s.notifications ++ [⟨nv⟩] }) := by
  unfold Storage.commit_inner
  rcases hw : writeIndexes env s.db (hashChanges env cache.unwritten_changes) with ⟨o1, db1⟩
  have ho1 : o1 = none := by
    have := writeIndexes_noFail env hf (hashChanges env cache.unwritten_changes) s.db
    rw [hw] at this; exact this
  subst ho1
  obtain ⟨⟨root, batch⟩, hp⟩ := hf.2.2.1 db1 s.snapshots.latest.version
    (valueSet (hashChanges env cache.unwritten_changes)) nv
  rcases hn : write_node_batch env db1 batch.nodes with ⟨o2, db2⟩
  have ho2 : o2 = none := by
    have := write_node_batch_noFail env hf batch.nodes db1
    rw [hn] at this; exact this
  subst ho2
  rcases hvv : writeValues env db2 batch.values with ⟨o3, db3⟩
  have ho3 : o3 = none := by
    have := writeValues_noFail env hf batch.values db2
    rw [hvv] at this; exact this
  subst ho3
  rcases hnc : writeNonconsensus env db3 cache.nonconsensus_changes with ⟨o4, db4⟩
  have ho4 : o4 = none := by
    have := writeNonconsensus_noFail env hf cache.nonconsensus_changes db3
    rw [hnc] at this; exact this
  subst ho4
  have ht : s.snapshots.try_push ⟨nv⟩ =
      some ⟨⟨nv⟩, (s.snapshots.latest :: s.snapshots.older).take (s.snapshots.capacity - 1),
            s.snapshots.capacity⟩ := by
    rw [SnapshotCache.try_push, if_pos hv]
  refine ⟨root, db4, ?_⟩
  simp [hw, hp, hn, hvv, hnc, ht]

/-- On success, `commit_inner` installs exactly the snapshot at the new
version as the latest one. -/
theorem commit_inner_ok_latest (env : Env) (s : Storage) (cache : Cache)
    (nv : Nat) (r : Bytes) (s' : Storage)
    (h : Storage.commit_inner env s cache nv = (.ok r, s')) :
    s'.snapshots.latest = ⟨nv⟩ ∧
    s'.notifications = s.notifications ++ [⟨nv⟩] := by
  unfold Storage.commit_inner at h
  repeat' split at h
  all_goals
    first
    | (injection h with h1 h2; exact Except.noConfusion h1)
    | skip
  case _ o hps =>
    injection h with h1 h2
    subst h2
    rw [SnapshotCache.try_push] at hps
    split at hps
    · injection hps with hps
      subst hps
      exact ⟨rfl, rfl⟩
    · exact Option.noConfusion hps

/-- The successive versions published by a run of successful commits
starting at version `v`: wrapping increments. -/
def versionsFrom (v : Nat) : Nat → List Nat
  | 0 => []
  | n+1 => wrapAdd1 v :: versionsFrom (wrapAdd1 v) n

theorem versionsFrom_eq_map (n : Nat) : ∀ v : Nat,
    versionsFrom v n = (List.range n).map (fun i => (v + 1 + i) % 2^64) := by
  induction n with
  | zero => intro v; rfl
  | succ n ih =>
    intro v
    rw [versionsFrom, ih, List.range_succ_eq_map]
    rw [List.map_cons, List.map_map]
    refine congrArg₂ List.cons ?_ (List.map_congr_left ?_)
    · simp [wrapAdd1]
    · intro i hi
      show (wrapAdd1 v + 1 + i) % 2^64 = (v + 1 + (i + 1)) % 2^64
      rw [wrapAdd1, Nat.add_assoc, Nat.mod_add_mod]
      congr 1
      omega

theorem versionsFrom_sentinel (n : Nat) (hn : n ≤ 2^64) :
    versionsFrom PRE_GENESIS_VERSION n = List.range n := by
  rw [versionsFrom_eq_map]
  have h : ∀ i ∈ List.range n, (PRE_GENESIS_VERSION + 1 + i) % 2^64 = (fun i => i) i := by
    intro i hi
    have hi' : i < n := List.mem_range.mp hi
    have he : PRE_GENESIS_VERSION + 1 + i = 2^64 + i := by
      rw [PRE_GENESIS_VERSION]; omega
    rw [he, Nat.add_mod_left, Nat.mod_eq_of_lt (lt_of_lt_of_le hi' hn)]
  rw [List.map_congr_left h, List.map_id']

/-- In a no-failure environment, committing a delta based on the
current tip goes through `commit_inner` at the wrapped successor
version. -/
theorem commit_tipDelta (env : Env) (s : Storage) (c : Cache) :
    Storage.commit env s (tipDelta s c) =
      Storage.commit_inner env s c (wrapAdd1 s.latest_version) := by
  simp only [Storage.commit, tipDelta, StateDelta.flatten]
  rw [if_neg]
  intro h
  exact h rfl

theorem commitChain_notifications (env : Env) (hf : noFail env) :
    ∀ (caches : List Cache) (s : Storage),
      (commitChain env s caches).notifications =
        s.notifications ++
          (versionsFrom s.snapshots.latest.version caches.length).map
            (fun v => (⟨v⟩ : Snapshot)) := by
  intro caches
  induction caches with
  | nil => intro s; simp [commitChain, versionsFrom]
  | cons c cs ih =>
    intro s
    obtain ⟨r, db', hci⟩ := commit_inner_noFail env hf s c (wrapAdd1 s.latest_version) rfl
    rw [commitChain, commit_tipDelta, hci, ih]
    rw [List.length_cons, versionsFrom]
    simp [Storage.latest_version, Storage.latest_snapshot]

/-- Claim C5: on every successful commit the new latest version is the
old one plus one with wrapping 64-bit addition (so the first commit on
an empty store, whose tip is the pre-genesis sentinel `2^64 - 1`,
publishes version 0); and a sequence of `n` successful commits from an
empty store publishes exactly the versions `0, 1, …, n-1` in order. -/
theorem commit_version_succession :
    (∀ (env : Env) (s : Storage) (d : StateDelta) (r : Bytes) (s' : Storage),
      Storage.commit env s d = (.ok r, s') →
      s'.latest_version = wrapAdd1 s.latest_version) ∧
    (∀ (env : Env) (caches : List Cache), noFail env → caches.length ≤ 2^64 →
      (commitChain env openEmpty caches).notifications.map Snapshot.version =
        List.range caches.length) := by
  constructor
  · intro env s d r s' h
    rw [Storage.commit] at h
    by_cases hc : s.latest_version ≠ d.flatten.1.version
    · rw [if_pos hc] at h
      exact absurd h (by simp)
    · rw [if_neg hc] at h
      have := (commit_inner_ok_latest env s d.flatten.2 (wrapAdd1 s.latest_version) r s' h).1
      simp [Storage.latest_version, Storage.latest_snapshot, this]
  · intro env caches hf hlen
    rw [commitChain_notifications env hf caches openEmpty]
    have : openEmpty.snapshots.latest.version = PRE_GENESIS_VERSION := rfl
    rw [this, versionsFrom_sentinel caches.length hlen]
    show List.map Snapshot.version ([] ++ (List.range caches.length).map (fun v => (⟨v⟩ : Snapshot))) = _
    rw [List.nil_append, List.map_map]
    exact List.map_id _

/-- Witness for C5: in a no-failure environment, two commits from an
empty store publish versions `[0, 1]`. -/
theorem commit_version_succession_witness :
    (commitChain env0 openEmpty [cache1, cache1]).notifications.map Snapshot.version =
      List.range 2 :=
  commit_version_succession.2 env0 [cache1, cache1]
    ⟨fun _ _ _ => rfl, fun _ _ => rfl, fun _ _ _ _ => ⟨_, rfl⟩,
     fun _ => ⟨_, rfl⟩, fun _ => ⟨_, rfl⟩⟩
    (by norm_num)

/-! ## C3: the initial version on open -/

/-- An environment whose node-key decoder reports version 5 and whose
node decoder reports an internal (non-leaf) node, for every input. -/
def env3 : Env :=
  { env0 with
      decodeNodeKey := fun _ => .ok ⟨5, []⟩,
      decodeNode := fun _ => .ok (.internal []) }

/-- A store whose `jmt` column family has exactly one entry. -/
def db3 : DB := { emptyDB with jmt := [([(0:Byte)], [(1:Byte)])] }

/-- Counterexample to C3 as stated: a nonempty store whose rightmost
`jmt` entry decodes to a `NodeKey` with version 5 — but to a non-leaf
node — opens at the pre-genesis sentinel, not at version 5.  The claim
omits the leaf check performed by `get_rightmost_leaf`. -/
theorem load_initial_version_counterexample :
    lastEntry db3.jmt = some ([(0:Byte)], [(1:Byte)]) ∧
    env3.decodeNodeKey [(0:Byte)] = .ok ⟨5, []⟩ ∧
    (Storage.load env3 db3).map (fun st => st.snapshots.latest.version) =
      .ok PRE_GENESIS_VERSION ∧
    PRE_GENESIS_VERSION ≠ 5 := by
  refine ⟨rfl, rfl, rfl, ?_⟩
  rw [PRE_GENESIS_VERSION]
  omega

/-- Claim C3 (amended): on open, `Storage::load` seeks to the last key
of the `jmt` column family and decodes it as a `NodeKey` and its value
as a `Node`; the initial version is that node key's version only when
the node is a leaf; otherwise — in particular when the store is empty —
the pre-genesis sentinel `2^64 - 1` is used.  This version is the
version of the (single) first snapshot installed in the cache. -/
theorem load_initial_version (env : Env) (db : DB) (st : Storage)
    (h : Storage.load env db = .ok st) :
    ((∃ k v nk d, lastEntry db.jmt = some (k, v) ∧
        env.decodeNodeKey k = .ok nk ∧ env.decodeNode v = .ok (.leaf d) ∧
        st.snapshots.latest.version = nk.version) ∨
     (st.snapshots.latest.version = PRE_GENESIS_VERSION ∧
        (lastEntry db.jmt = none ∨
         ∃ k v nk d, lastEntry db.jmt = some (k, v) ∧
           env.decodeNodeKey k = .ok nk ∧ env.decodeNode v = .ok (.internal d)))) ∧
    st.snapshots = SnapshotCache.new st.snapshots.latest 10 ∧
    st.db = db ∧ st.notifications = [] := by
  rw [Storage.load] at h
  rcases hlv : PenumbraStorage.latest_version env db with e | lv
  · rw [hlv] at h
    exact absurd h (by simp [Except.map])
  · rw [hlv] at h
    simp only [Except.map] at h
    injection h with h
    subst h
    rw [PenumbraStorage.latest_version] at hlv
    rcases hgr : get_rightmost_leaf env db with e | o
    · rw [hgr] at hlv
      exact absurd hlv (by simp [Except.map])
    · rw [hgr] at hlv
      simp only [Except.map] at hlv
      injection hlv with hlv
      subst hlv
      rcases hle : lastEntry db.jmt with _ | kv
      · have hko : get_rightmost_leaf env db = .ok none := by
          rw [get_rightmost_leaf, hle]
        rw [hko] at hgr
        injection hgr with hgr
        subst hgr
        exact ⟨Or.inr ⟨rfl, Or.inl rfl⟩, rfl, rfl, rfl⟩
      · rcases kv with ⟨k, v⟩
        rcases hdk : env.decodeNodeKey k with e | nk
        · have hko : get_rightmost_leaf env db = .error e := by
            simp [get_rightmost_leaf, hle, hdk]
          rw [hko] at hgr
          exact absurd hgr (by simp)
        · rcases hdn : env.decodeNode v with e | node
          · have hko : get_rightmost_leaf env db = .error e := by
              simp [get_rightmost_leaf, hle, hdk, hdn]
            rw [hko] at hgr
            exact absurd hgr (by simp)
          · rcases node with d | d
            · have hko : get_rightmost_leaf env db = .ok (some (nk, d)) := by
                simp [get_rightmost_leaf, hle, hdk, hdn]
              rw [hko] at hgr
              injection hgr with hgr
              subst hgr
              exact ⟨Or.inl ⟨k, v, nk, d, rfl, hdk, hdn, rfl⟩, rfl, rfl, rfl⟩
            · have hko : get_rightmost_leaf env db = .ok none := by
                simp [get_rightmost_leaf, hle, hdk, hdn]
              rw [hko] at hgr
              injection hgr with hgr
              subst hgr
              exact ⟨Or.inr ⟨rfl, Or.inr ⟨k, v, nk, d, rfl, hdk, hdn⟩⟩, rfl, rfl, rfl⟩

/-- Witness for the amended C3 at a concrete input: opening the empty
store installs the sentinel-versioned snapshot as the sole cache
entry. -/
theorem load_initial_version_witness :
    openEmpty.snapshots = SnapshotCache.new openEmpty.snapshots.latest 10 ∧
    openEmpty.db = emptyDB ∧ openEmpty.notifications = [] :=
  (load_initial_version env0 emptyDB openEmpty rfl).2

/-! ## C6: the two key indexes are mutual inverses after a commit -/

/-- `write_node_batch` touches only the `jmt` column family. -/
theorem write_node_batch_fields (env : Env) :
    ∀ (l : List (NodeKey × Node)) (db : DB),
      (write_node_batch env db l).2.jmt_values = db.jmt_values ∧
      (write_node_batch env db l).2.jmt_keys = db.jmt_keys ∧
      (write_node_batch env db l).2.jmt_keys_by_keyhash = db.jmt_keys_by_keyhash ∧
      (write_node_batch env db l).2.nonconsensus = db.nonconsensus := by
  intro l
  induction l with
  | nil => intro db; exact ⟨rfl, rfl, rfl, rfl⟩
  | cons x rest ih =>
    intro db
    rcases x with ⟨nk, node⟩
    rcases hek : env.encodeNodeKey nk with e | kb
    · simp [write_node_batch, hek]
    · rcases hen : env.encodeNode node with e | nb
      · simp [write_node_batch, hek, hen]
      · by_cases hfp : env.failPut .jmt kb nb
        · simp [write_node_batch, hek, hen, hfp]
        · simpa [write_node_batch, hek, hen, hfp] using ih _

/-- `writeValues` touches only the `jmt_values` column family. -/
theorem writeValues_fields (env : Env) :
    ∀ (l : List ((Nat × Bytes) × Option Bytes)) (db : DB),
      (writeValues env db l).2.jmt = db.jmt ∧
      (writeValues env db l).2.jmt_keys = db.jmt_keys ∧
      (writeValues env db l).2.jmt_keys_by_keyhash = db.jmt_keys_by_keyhash ∧
      (writeValues env db l).2.nonconsensus = db.nonconsensus := by
  intro l
  induction l with
  | nil => intro db; exact ⟨rfl, rfl, rfl, rfl⟩
  | cons x rest ih =>
    intro db
    rcases x with ⟨⟨ver, kh⟩, v⟩
    rcases v with _ | v
    · simpa [writeValues] using ih db
    · by_cases hfp : env.failPut .jmt_values (VersionedKey.encode ⟨kh, ver⟩) v
      · simp [writeValues, hfp]
      · simpa [writeValues, hfp] using ih _

/-- `writeNonconsensus` touches only the `nonconsensus` column family. -/
theorem writeNonconsensus_fields (env : Env) :
    ∀ (l : List (Bytes × Option Bytes)) (db : DB),
      (writeNonconsensus env db l).2.jmt = db.jmt ∧
      (writeNonconsensus env db l).2.jmt_values = db.jmt_values ∧
      (writeNonconsensus env db l).2.jmt_keys = db.jmt_keys ∧
      (writeNonconsensus env db l).2.jmt_keys_by_keyhash = db.jmt_keys_by_keyhash := by
  intro l
  induction l with
  | nil => intro db; exact ⟨rfl, rfl, rfl, rfl⟩
  | cons x rest ih =>
    intro db
    rcases x with ⟨k, v⟩
    rcases v with _ | v
    · by_cases hfd : env.failDel .nonconsensus k
      · simp [writeNonconsensus, hfd]
      · simpa [writeNonconsensus, hfd] using ih _
    · by_cases hfp : env.failPut .nonconsensus k v
      · simp [writeNonconsensus, hfp]
      · simpa [writeNonconsensus, hfp] using ih _

/-- A successful `writeIndexes` run leaves the entries of keys and key
hashes it never processes unchanged. -/
theorem writeIndexes_untouched (env : Env) :
    ∀ (l : List (Bytes × Bytes × Option Bytes)) (db db' : DB),
      writeIndexes env db l = (none, db') →
      ∀ (k kh : Bytes), (∀ x ∈ l, x.2.1 ≠ k ∧ x.1 ≠ kh) →
        mget db'.jmt_keys k = mget db.jmt_keys k ∧
        mget db'.jmt_keys_by_keyhash kh = mget db.jmt_keys_by_keyhash kh := by
  intro l
  induction l with
  | nil =>
    intro db db' h k kh _
    injection h with _ h2
    subst h2
    exact ⟨rfl, rfl⟩
  | cons y rest ih =>
    intro db db' h k kh hne
    rcases y with ⟨ykh, yk, yv⟩
    obtain ⟨hk, hkh⟩ := hne _ (List.mem_cons_self _ _)
    have hrest : ∀ x ∈ rest, x.2.1 ≠ k ∧ x.1 ≠ kh :=
      fun x hx => hne x (List.mem_cons_of_mem _ hx)
    rcases yv with _ | yv
    · rw [writeIndexes] at h
      by_cases h1 : env.failDel .jmt_keys yk
      · rw [if_pos h1] at h
        exact absurd h (by simp)
      · rw [if_neg h1] at h
        by_cases h2 : env.failDel .jmt_keys_by_keyhash ykh
        · rw [if_pos h2] at h
          exact absurd h (by simp)
        · rw [if_neg h2] at h
          obtain ⟨ha, hb⟩ := ih _ _ h k kh hrest
          rw [ha, hb]
          exact ⟨mget_mdel_ne _ _ _ (Ne.symm hk), mget_mdel_ne _ _ _ (Ne.symm hkh)⟩
    · rw [writeIndexes] at h
      by_cases h1 : env.failPut .jmt_keys yk ykh
      · rw [if_pos h1] at h
        exact absurd h (by simp)
      · rw [if_neg h1] at h
        by_cases h2 : env.failPut .jmt_keys_by_keyhash ykh yk
        · rw [if_pos h2] at h
          exact absurd h (by simp)
        · rw [if_neg h2] at h
          obtain ⟨ha, hb⟩ := ih _ _ h k kh hrest
          rw [ha, hb]
          exact ⟨mget_mput_ne _ _ _ _ (Ne.symm hk), mget_mput_ne _ _ _ _ (Ne.symm hkh)⟩

/-- After a successful `writeIndexes` run over entries with distinct
keys and distinct key hashes, each present entry is indexed both ways
and each deleted entry is absent from both indexes. -/
theorem writeIndexes_mem (env : Env) :
    ∀ (l : List (Bytes × Bytes × Option Bytes)) (db db' : DB),
      writeIndexes env db l = (none, db') →
      (l.map (fun x => x.2.1)).Nodup →
      (l.map (fun x => x.1)).Nodup →
      ∀ x ∈ l,
        (x.2.2.isSome →
          mget db'.jmt_keys x.2.1 = some x.1 ∧
          mget db'.jmt_keys_by_keyhash x.1 = some x.2.1) ∧
        (x.2.2 = none →
          mget db'.jmt_keys x.2.1 = none ∧
          mget db'.jmt_keys_by_keyhash x.1 = none) := by
  intro l
  induction l with
  | nil => intro db db' _ _ _ x hx; exact absurd hx (List.not_mem_nil x)
  | cons y rest ih =>
    intro db db' h hnk hnh x hx
    rcases y with ⟨ykh, yk, yv⟩
    rw [List.map_cons, List.nodup_cons] at hnk hnh
    obtain ⟨hnk1, hnk2⟩ := hnk
    obtain ⟨hnh1, hnh2⟩ := hnh
    have hcond : ∀ z ∈ rest, z.2.1 ≠ yk ∧ z.1 ≠ ykh := by
      intro z hz
      constructor
      · intro hzk
        exact hnk1 (hzk ▸ List.mem_map_of_mem (fun x => x.2.1) hz)
      · intro hzh
        exact hnh1 (hzh ▸ List.mem_map_of_mem (fun x => x.1) hz)
    rcases yv with _ | yv
    · rw [writeIndexes] at h
      by_cases h1 : env.failDel .jmt_keys yk
      · rw [if_pos h1] at h
        exact absurd h (by simp)
      · rw [if_neg h1] at h
        by_cases h2 : env.failDel .jmt_keys_by_keyhash ykh
        · rw [if_pos h2] at h
          exact absurd h (by simp)
        · rw [if_neg h2] at h
          rcases List.mem_cons.mp hx with hx | hx
          · subst hx
            obtain ⟨ha, hb⟩ := writeIndexes_untouched env rest _ db' h yk ykh hcond
            refine ⟨fun habs => by simp at habs, fun _ => ?_⟩
            rw [ha, hb]
            exact ⟨mget_mdel_self _ _, mget_mdel_self _ _⟩
          · exact ih _ _ h hnk2 hnh2 x hx
    · rw [writeIndexes] at h
      by_cases h1 : env.failPut .jmt_keys yk ykh
      · rw [if_pos h1] at h
        exact absurd h (by simp)
      · rw [if_neg h1] at h
        by_cases h2 : env.failPut .jmt_keys_by_keyhash ykh yk
        · rw [if_pos h2] at h
          exact absurd h (by simp)
        · rw [if_neg h2] at h
          rcases List.mem_cons.mp hx with hx | hx
          · subst hx
            obtain ⟨ha, hb⟩ := writeIndexes_untouched env rest _ db' h yk ykh hcond
            refine ⟨fun _ => ?_, fun habs => by simp at habs⟩
            rw [ha, hb]
            exact ⟨mget_mput_self _ _ _, mget_mput_self _ _ _⟩
          · exact ih _ _ h hnk2 hnh2 x hx

/-- Decomposition of a successful `commit_inner` into its pipeline
stages. -/
theorem commit_inner_ok_elim (env : Env) (s : Storage) (cache : Cache) (nv : Nat)
    (r : Bytes) (s' : Storage)
    (h : Storage.commit_inner env s cache nv = (.ok r, s')) :
    ∃ db1 batch db2 db3 db4 snaps,
      writeIndexes env s.db (hashChanges env cache.unwritten_changes) = (none, db1) ∧
      env.putValueSet db1 s.snapshots.latest.version
        (valueSet (hashChanges env cache.unwritten_changes)) nv = .ok (r, batch) ∧
      write_node_batch env db1 batch.nodes = (none, db2) ∧
      writeValues env db2 batch.values = (none, db3) ∧
      writeNonconsensus env db3 cache.nonconsensus_changes = (none, db4) ∧
      s.snapshots.try_push ⟨nv⟩ = some snaps ∧
      s' = { snapshots := snaps, db := db4,
             notifications := s.notifications ++ [⟨nv⟩] } := by
  unfold Storage.commit_inner at h
  rcases hw : writeIndexes env s.db (hashChanges env cache.unwritten_changes) with ⟨o1, db1⟩
  rcases o1 with _ | e
  · simp only [hw] at h
    rcases hp : env.putValueSet db1 s.snapshots.latest.version
        (valueSet (hashChanges env cache.unwritten_changes)) nv with e | rb
    · simp [hp] at h
    · rcases rb with ⟨root, batch⟩
      simp only [hp] at h
      rcases hn : write_node_batch env db1 batch.nodes with ⟨o2, db2⟩
      rcases o2 with _ | e
      · simp only [hn] at h
        rcases hvv : writeValues env db2 batch.values with ⟨o3, db3⟩
        rcases o3 with _ | e
        · simp only [hvv] at h
          rcases hnc : writeNonconsensus env db3 cache.nonconsensus_changes with ⟨o4, db4⟩
          rcases o4 with _ | e
          · simp only [hnc] at h
            rcases ht : s.snapshots.try_push ⟨nv⟩ with _ | snaps
            · simp [ht] at h
            · simp only [ht] at h
              injection h with h1 h2
              injection h1 with h1
              subst h1
              subst h2
              exact ⟨db1, batch, db2, db3, db4, snaps, rfl, hp, hn, hvv, hnc, rfl, rfl⟩
          · simp [hnc] at h
        · simp [hvv] at h
      · simp [hn] at h
  · simp [hw] at h

/-- Claim C6: after every successful commit, every key of the delta
with a present value is mapped by `jmt_keys` to its key hash and by
`jmt_keys_by_keyhash` back to its preimage, and every key deleted by
the delta is absent from both indexes — the two index column families
are mutual inverses for the delta's live keys at the published version.
(The key hash is collision-free, as assumed of SHA-256, and the delta's
keys are unique, as guaranteed by the `BTreeMap` it comes from.) -/
theorem commit_index_mutual (env : Env) (s : Storage) (d : StateDelta)
    (r : Bytes) (s' : Storage)
    (hc : Storage.commit env s d = (.ok r, s'))
    (hinj : Function.Injective env.hash)
    (hnd : (d.cache.unwritten_changes.map Prod.fst).Nodup) :
    ∀ kv ∈ d.cache.unwritten_changes,
      (kv.2.isSome →
        mget s'.db.jmt_keys kv.1 = some (env.hash kv.1) ∧
        mget s'.db.jmt_keys_by_keyhash (env.hash kv.1) = some kv.1) ∧
      (kv.2 = none →
        mget s'.db.jmt_keys kv.1 = none ∧
        mget s'.db.jmt_keys_by_keyhash (env.hash kv.1) = none) := by
  intro kv hkv
  rw [Storage.commit] at hc
  by_cases hcv : s.latest_version ≠ d.flatten.1.version
  · rw [if_pos hcv] at hc
    exact absurd hc (by simp)
  · rw [if_neg hcv] at hc
    obtain ⟨db1, batch, db2, db3, db4, snaps, hw, hp, hn, hvv, hnc, ht, hs'⟩ :=
      commit_inner_ok_elim env s d.flatten.2 (wrapAdd1 s.latest_version) r s' hc
    subst hs'
    have h4 := writeNonconsensus_fields env d.flatten.2.nonconsensus_changes db3
    rw [hnc] at h4
    have h3 := writeValues_fields env batch.values db2
    rw [hvv] at h3
    have h2 := write_node_batch_fields env batch.nodes db1
    rw [hn] at h2
    have hkeys : db4.jmt_keys = db1.jmt_keys := by
      rw [h4.2.2.1, h3.2.1, h2.2.1]
    have hrev : db4.jmt_keys_by_keyhash = db1.jmt_keys_by_keyhash := by
      rw [h4.2.2.2, h3.2.2.1, h2.2.2.1]
    have hx : (env.hash kv.1, kv.1, kv.2) ∈
        hashChanges env d.flatten.2.unwritten_changes :=
      List.mem_map_of_mem _ hkv
    have hnk : ((hashChanges env d.flatten.2.unwritten_changes).map
        (fun x => x.2.1)).Nodup := by
      rw [hashChanges, List.map_map]
      exact hnd
    have hnh : ((hashChanges env d.flatten.2.unwritten_changes).map
        (fun x => x.1)).Nodup := by
      rw [hashChanges, List.map_map]
      have hm := hnd.map hinj
      rw [List.map_map] at hm
      exact hm
    have hmem := writeIndexes_mem env _ s.db db1 hw hnk hnh _ hx
    constructor
    · intro hsome
      obtain ⟨ha, hb⟩ := hmem.1 hsome
      constructor
      · show mget db4.jmt_keys kv.1 = some (env.hash kv.1)
        rw [hkeys]
        exact ha
      · show mget db4.jmt_keys_by_keyhash (env.hash kv.1) = some kv.1
        rw [hrev]
        exact hb
    · intro hnone
      obtain ⟨ha, hb⟩ := hmem.2 hnone
      constructor
      · show mget db4.jmt_keys kv.1 = none
        rw [hkeys]
        exact ha
      · show mget db4.jmt_keys_by_keyhash (env.hash kv.1) = none
        rw [hrev]
        exact hb

/-- Witness for C6: committing `cache1` on a fresh store indexes its
key both ways (the stub hash is the identity). -/
theorem commit_index_mutual_witness :
    mget (Storage.commit env0 openEmpty (tipDelta openEmpty cache1)).2.db.jmt_keys
        [(0:Byte)] = some [(0:Byte)] ∧
    mget (Storage.commit env0 openEmpty
          (tipDelta openEmpty cache1)).2.db.jmt_keys_by_keyhash
        [(0:Byte)] = some [(0:Byte)] := by
  have h := commit_index_mutual env0 openEmpty (tipDelta openEmpty cache1) []
    (Storage.commit env0 openEmpty (tipDelta openEmpty cache1)).2 (by rfl)
    (fun a b hab => hab) (by decide) ([(0:Byte)], some [(1:Byte)]) (by decide)
  exact h.1 rfl

/-! ## C7: leaf values are written per version, never deleted -/

/-- A successful `writeValues` run leaves every `jmt_values` key not
written by a present entry unchanged: absent entries are skipped, no
tombstone is issued. -/
theorem writeValues_untouched (env : Env) :
    ∀ (l : List ((Nat × Bytes) × Option Bytes)) (db db' : DB),
      writeValues env db l = (none, db') →
      ∀ k : Bytes,
        (∀ ver kh v, ((ver, kh), some v) ∈ l → VersionedKey.encode ⟨kh, ver⟩ ≠ k) →
        mget db'.jmt_values k = mget db.jmt_values k := by
  intro l
  induction l with
  | nil =>
    intro db db' h k _
    injection h with _ h2
    subst h2
    rfl
  | cons x rest ih =>
    intro db db' h k hcond
    rcases x with ⟨⟨ver, kh⟩, v⟩
    rcases v with _ | v
    · rw [writeValues] at h
      exact ih _ _ h k
        (fun ver' kh' v' hm => hcond ver' kh' v' (List.mem_cons_of_mem _ hm))
    · rw [writeValues] at h
      by_cases hfp : env.failPut .jmt_values (VersionedKey.encode ⟨kh, ver⟩) v
      · rw [if_pos hfp] at h
        exact absurd h (by simp)
      · rw [if_neg hfp] at h
        have hne : VersionedKey.encode ⟨kh, ver⟩ ≠ k :=
          hcond ver kh v (List.mem_cons_self _ _)
        rw [ih _ _ h k
          (fun ver' kh' v' hm => hcond ver' kh' v' (List.mem_cons_of_mem _ hm))]
        exact mget_mput_ne _ _ _ _ (Ne.symm hne)

/-- After a successful `writeValues` run over entries with distinct
encoded keys, each present entry is stored under its `VersionedKey`
encoding. -/
theorem writeValues_mem (env : Env) :
    ∀ (l : List ((Nat × Bytes) × Option Bytes)) (db db' : DB),
      writeValues env db l = (none, db') →
      (l.map (fun x => VersionedKey.encode ⟨x.1.2, x.1.1⟩)).Nodup →
      ∀ ver kh v, ((ver, kh), some v) ∈ l →
        mget db'.jmt_values (VersionedKey.encode ⟨kh, ver⟩) = some v := by
  intro l
  induction l with
  | nil =>
    intro db db' _ _ ver kh v hm
    exact absurd hm (List.not_mem_nil _)
  | cons x rest ih =>
    intro db db' h hnd ver kh v hm
    rcases x with ⟨⟨xver, xkh⟩, xv⟩
    rw [List.map_cons, List.nodup_cons] at hnd
    obtain ⟨hnd1, hnd2⟩ := hnd
    rcases List.mem_cons.mp hm with he | hm'
    · injection he with he1 he2
      injection he1 with he1a he1b
      subst he1a
      subst he1b
      subst he2
      rw [writeValues] at h
      by_cases hfp : env.failPut .jmt_values (VersionedKey.encode ⟨kh, ver⟩) v
      · rw [if_pos hfp] at h
        exact absurd h (by simp)
      · rw [if_neg hfp] at h
        have hcond : ∀ ver' kh' v', ((ver', kh'), some v') ∈ rest →
            VersionedKey.encode ⟨kh', ver'⟩ ≠ VersionedKey.encode ⟨kh, ver⟩ := by
          intro ver' kh' v' hmem heq
          exact hnd1 (heq ▸ List.mem_map_of_mem _ hmem)
        rw [writeValues_untouched env rest _ db' h _ hcond]
        exact mget_mput_self _ _ _
    · rcases xv with _ | xv
      · rw [writeValues] at h
        exact ih _ _ h hnd2 ver kh v hm'
      · rw [writeValues] at h
        by_cases hfp : env.failPut .jmt_values (VersionedKey.encode ⟨xkh, xver⟩) xv
        · rw [if_pos hfp] at h
          exact absurd h (by simp)
        · rw [if_neg hfp] at h
          exact ih _ _ h hnd2 ver kh v hm'

/-- Claim C7: during a commit, each `((version, key_hash), value)` pair
of the jmt batch's leaf-value list with a present value is written to
`jmt_values` under the 40-byte encoding of
`VersionedKey{version, key_hash}`, and each absent value is skipped
entirely — no tombstone or delete reaches `jmt_values`, so every key not
written by a present entry (in particular any value recorded at a prior
version) keeps its stored value; and on a successful `commit_inner` the
final `jmt_values` family is exactly the one produced by this loop. -/
theorem commit_leaf_values :
    (∀ (env : Env) (l : List ((Nat × Bytes) × Option Bytes)) (db db' : DB),
      writeValues env db l = (none, db') →
      ∀ k : Bytes,
        (∀ ver kh v, ((ver, kh), some v) ∈ l → VersionedKey.encode ⟨kh, ver⟩ ≠ k) →
        mget db'.jmt_values k = mget db.jmt_values k) ∧
    (∀ (env : Env) (l : List ((Nat × Bytes) × Option Bytes)) (db db' : DB),
      writeValues env db l = (none, db') →
      (l.map (fun x => VersionedKey.encode ⟨x.1.2, x.1.1⟩)).Nodup →
      ∀ ver kh v, ((ver, kh), some v) ∈ l →
        mget db'.jmt_values (VersionedKey.encode ⟨kh, ver⟩) = some v) ∧
    (∀ (env : Env) (s : Storage) (cache : Cache) (nv : Nat) (r : Bytes) (s' : Storage),
      Storage.commit_inner env s cache nv = (.ok r, s') →
      ∃ db1 batch db2 db3,
        writeIndexes env s.db (hashChanges env cache.unwritten_changes) = (none, db1) ∧
        env.putValueSet db1 s.snapshots.latest.version
          (valueSet (hashChanges env cache.unwritten_changes)) nv = .ok (r, batch) ∧
        write_node_batch env db1 batch.nodes = (none, db2) ∧
        writeValues env db2 batch.values = (none, db3) ∧
        s'.db.jmt_values = db3.jmt_values) := by
  refine ⟨writeValues_untouched, writeValues_mem, ?_⟩
  intro env s cache nv r s' h
  obtain ⟨db1, batch, db2, db3, db4, snaps, hw, hp, hn, hvv, hnc, ht, hs'⟩ :=
    commit_inner_ok_elim env s cache nv r s' h
  subst hs'
  have h4 := writeNonconsensus_fields env cache.nonconsensus_changes db3
  rw [hnc] at h4
  exact ⟨db1, batch, db2, db3, hw, hp, hn, hvv, h4.2.1⟩

/-- Concrete leaf-value list: a present value at version 0 and a
deleted leaf at version 1 for the same key hash. -/
def batchValues1 : List ((Nat × Bytes) × Option Bytes) :=
  [((0, [(7:Byte)]), some [(9:Byte)]), ((1, [(7:Byte)]), none)]

/-- Witness for C7: the present entry of `batchValues1` lands under its
versioned key, while the deleted entry leaves its own versioned key
untouched (no tombstone). -/
theorem commit_leaf_values_witness :
    mget (writeValues env0 emptyDB batchValues1).2.jmt_values
        (VersionedKey.encode ⟨[(7:Byte)], 0⟩) = some [(9:Byte)] ∧
    mget (writeValues env0 emptyDB batchValues1).2.jmt_values
        (VersionedKey.encode ⟨[(7:Byte)], 1⟩) =
      mget emptyDB.jmt_values (VersionedKey.encode ⟨[(7:Byte)], 1⟩) := by
  constructor
  · exact commit_leaf_values.2.1 env0 batchValues1 emptyDB _ rfl (by decide)
      0 [(7:Byte)] [(9:Byte)] (by decide)
  · refine commit_leaf_values.1 env0 batchValues1 emptyDB _ rfl _ ?_
    intro ver kh v hm
    rcases List.mem_cons.mp hm with he | hm2
    · injection he with he1 he2
      injection he1 with he1a he1b
      subst he1a
      subst he1b
      decide
    · rcases List.mem_cons.mp hm2 with he | hm3
      · injection he with he1 he2
        exact absurd he2 (by simp)
      · exact absurd hm3 (List.not_mem_nil _)

end PenumbraStorage
